import Mathlib

/-!
Verification development for the pywnxml WordNet query engine
(`WNQuery.py`, `synset.py`, `SemFeatures.py`).

The Python code is shallowly embedded: dictionaries become association
lists (Python dicts preserve insertion order and the code relies on
`sorted(...)` snapshots), the unbounded recursions of the graph
algorithms take an explicit fuel argument and return `none` where the
Python code would not terminate (there is no cycle guard in the source),
and diagnostics printed to the log become an explicit event list.
Python string comparison (used by `sorted`) is lexicographic on Unicode
code points, embedded below as `charListLtb` on `String.data`.
-/

/-- Lexicographic comparison of character lists by Unicode code point,
matching Python string comparison. -/
def charListLtb : List Char → List Char → Bool
  | [], [] => false
  | [], _ :: _ => true
  | _ :: _, [] => false
  | a :: as, b :: bs =>
    if a.toNat < b.toNat then true
    else if b.toNat < a.toNat then false
    else charListLtb as bs

/-- Python `<` on strings. -/
def strLtb (a b : String) : Bool := charListLtb a.data b.data

/-- Reflexive closure of `strLtb`, the total order used for `sorted` on ids. -/
def strLe (a b : String) : Prop := (strLtb a b || a = b) = true

instance : DecidableRel strLe := fun a b => by unfold strLe; infer_instance

/-- Python `<=` on pairs of strings (tuple comparison is lexicographic). -/
def pairLe (a b : String × String) : Prop :=
  (strLtb a.1 b.1 || (a.1 = b.1 && (strLtb a.2 b.2 || a.2 = b.2))) = true

instance : DecidableRel pairLe := fun a b => by unfold pairLe; infer_instance

/-- Python `sorted` on a list of ids. -/
def sortStrings (l : List String) : List String := l.insertionSort strLe

/-- Python `sorted` on a list of (target-id, relation) pairs, as in
`sorted(val.ilrs)` and `list(sorted(set(self.ilrs)))`. -/
def sortPairs (l : List (String × String)) : List (String × String) :=
  l.insertionSort pairLe

/-- One entry of `Synset.synonyms` (`synset.py`, class `Synonym`):
the literal word form and its sense number. -/
structure Synonym where
  literal : String
  sense : String
  deriving DecidableEq

/-- The fields of `synset.py`'s `Synset` used by the query engine: the id,
the part-of-speech tag, the definition, the `(target-id, relation)`
adjacency list `ilrs` and the synonym list.  The remaining fields
(`bcs`, `stamp`, external link lists, ...) are carried but never read by
any operation a claim is about. -/
structure Synset where
  wnid : String
  pos : String
  definition : String
  ilrs : List (String × String)
  synonyms : List Synonym
  deriving DecidableEq

/-- The four part-of-speech partitions (`n`, `v`, `a`, `b`). The claims
quantify over valid POS only, so the `InvalidPOSException` branch of
`WNQuery.dat` does not arise. -/
inductive POS where
  | n | v | a | b
  deriving DecidableEq

/-- First value stored under a key in an association list; Python `d[k]`
together with the `k in d` test. -/
def alookup {α : Type} (l : List (String × α)) (k : String) : Option α :=
  (l.find? (fun p => p.1 = k)).map (fun p => p.2)

/-- In-place update of the value stored under a key (the Python code
mutates the `Synset` object held by the dict, so the key order is
unchanged). -/
def aupdate {α : Type} (l : List (String × α)) (k : String) (v : α) :
    List (String × α) :=
  l.map (fun p => if p.1 = k then (k, v) else p)

/-- The in-memory state of a `WNQuery` object: four id-to-synset maps and
four literal-to-id-list indices, in insertion order. -/
structure WNQuery where
  m_ndat : List (String × Synset)
  m_vdat : List (String × Synset)
  m_adat : List (String × Synset)
  m_bdat : List (String × Synset)
  m_nidx : List (String × List String)
  m_vidx : List (String × List String)
  m_aidx : List (String × List String)
  m_bidx : List (String × List String)
  deriving DecidableEq

/-- `WNQuery.dat`: the synset map of a partition. -/
def WNQuery.dat (q : WNQuery) : POS → List (String × Synset)
  | POS.n => q.m_ndat
  | POS.v => q.m_vdat
  | POS.a => q.m_adat
  | POS.b => q.m_bdat

/-- `WNQuery.idx`: the literal index of a partition. -/
def WNQuery.idx (q : WNQuery) : POS → List (String × List String)
  | POS.n => q.m_nidx
  | POS.v => q.m_vidx
  | POS.a => q.m_aidx
  | POS.b => q.m_bidx

/-- The fixed inverse-relation table `_invRelTable` of `WNQuery.__init__`. -/
def invRelTable (rel : String) : Option String :=
  if rel = "hypernym" then some "hyponym"
  else if rel = "holo_member" then some "mero_member"
  else if rel = "holo_part" then some "mero_part"
  else if rel = "holo_portion" then some "mero_portion"
  else if rel = "region_domain" then some "region_member"
  else if rel = "usage_domain" then some "usage_member"
  else if rel = "category_domain" then some "category_member"
  else if rel = "near_antonym" then some "near_antonym"
  else if rel = "middle" then some "middle"
  else if rel = "verb_group" then some "verb_group"
  else if rel = "similar_to" then some "similar_to"
  else if rel = "also_see" then some "also_see"
  else if rel = "be_in_state" then some "be_in_state"
  else if rel = "eng_derivative" then some "eng_derivative"
  else if rel = "is_consequent_state_of" then some "has_consequent_state"
  else if rel = "is_preparatory_phase_of" then some "has_preparatory_phase"
  else if rel = "is_telos_of" then some "has_telos"
  else if rel = "subevent" then some "has_subevent"
  else if rel = "causes" then some "caused_by"
  else none

/-- Diagnostics emitted by `_inv_rel_pos`: warning W03 (missing target),
warning W04 (self-referencing relation) and the informational
"Added inverted relation" message, each with the ids the printed message
interpolates. -/
inductive InvEvent where
  | missingTarget (target rel source : String)
  | selfRef (invRel wnid : String)
  | added (target invRel dest : String)
  deriving DecidableEq

/-- Processing of a single `(target-id, relation)` edge inside
`_inv_rel_pos`: the state is the partition map plus the log emitted so
far.  `key` is the id of the synset being visited and `wnid` its stored
`wnid` field (the self-reference test compares `tt.wnid == val.wnid`). -/
def inv_edge (key wnid : String)
    (st : List (String × Synset) × List InvEvent) (e : String × String) :
    List (String × Synset) × List InvEvent :=
  match invRelTable e.2 with
  | none => st
  | some invr =>
    match alookup st.1 e.1 with
    | none => (st.1, st.2 ++ [InvEvent.missingTarget e.1 e.2 key])
    | some tt =>
      if tt.wnid = wnid then
        (st.1, st.2 ++ [InvEvent.selfRef invr wnid])
      else
        (aupdate st.1 e.1 { tt with ilrs := tt.ilrs ++ [(key, invr)] },
         st.2 ++ [InvEvent.added key invr tt.wnid])

/-- The outer loop of `_inv_rel_pos`, parameterised by the order in which
a synset's edges are visited (`sorted(val.ilrs)` in the code; the
identity gives the adjacency-list order the spec describes).  Each
synset's edge list is read from the partition state current when that
synset is visited, exactly as the mutating Python loop does. -/
def inv_rel_pos_go (edgeOrder : List (String × String) → List (String × String)) :
    List String → List (String × Synset) × List InvEvent →
    List (String × Synset) × List InvEvent
  | [], st => st
  | key :: rest, st =>
    match alookup st.1 key with
    | none => inv_rel_pos_go edgeOrder rest st
    | some val =>
      inv_rel_pos_go edgeOrder rest
        ((edgeOrder val.ilrs).foldl (inv_edge key val.wnid) st)

/-- `WNQuery._inv_rel_pos`: visit the synsets of one partition in
ascending-id order (`sorted(dat.items())`) and each synset's edges in
ascending pair order (`sorted(val.ilrs)`), adding inverse edges and
emitting diagnostics. -/
def inv_rel_pos (dat : List (String × Synset)) :
    List (String × Synset) × List InvEvent :=
  inv_rel_pos_go sortPairs (sortStrings (dat.map Prod.fst)) (dat, [])

/-- Variant of `inv_rel_pos` modelled from the spec's words: for each
synset, the edges are visited "in list order" (the adjacency-list order)
instead of the `sorted(val.ilrs)` order the code uses.  Used only to
compare the code against the specified iteration order. -/
def inv_rel_pos_listorder (dat : List (String × Synset)) :
    List (String × Synset) × List InvEvent :=
  inv_rel_pos_go id (sortStrings (dat.map Prod.fst)) (dat, [])

/-- `WNQuery.invert_relations`: run `_inv_rel_pos` on the four partitions
in the fixed order nouns, verbs, adjectives, adverbs.  The returned list
concatenates the diagnostics of the four passes. -/
def invert_relations (q : WNQuery) : WNQuery × List InvEvent :=
  let rn := inv_rel_pos q.m_ndat
  let rv := inv_rel_pos q.m_vdat
  let ra := inv_rel_pos q.m_adat
  let rb := inv_rel_pos q.m_bdat
  ({ q with m_ndat := rn.1, m_vdat := rv.1, m_adat := ra.1, m_bdat := rb.1 },
   rn.2 ++ rv.2 ++ ra.2 ++ rb.2)

/-- Synset A = "n1" of the spec's two-synset scenario: one `hypernym`
edge to "n2". -/
def synN1 : Synset :=
  { wnid := "n1", pos := "n", definition := "", ilrs := [("n2", "hypernym")],
    synonyms := [] }

/-- Synset B = "n2" of the spec's two-synset scenario: no edges. -/
def synN2 : Synset :=
  { wnid := "n2", pos := "n", definition := "", ilrs := [], synonyms := [] }

/-- The spec's two-synset scenario before inversion: partition "n" holds
"n1" and "n2" only. -/
def wn0 : WNQuery :=
  { m_ndat := [("n1", synN1), ("n2", synN2)],
    m_vdat := [], m_adat := [], m_bdat := [],
    m_nidx := [], m_vidx := [], m_aidx := [], m_bidx := [] }

/-- The scenario index after the one-time relation inversion. -/
def wn1 : WNQuery := (invert_relations wn0).1

example : (alookup wn1.m_ndat "n2").map Synset.ilrs = some [("n1", "hyponym")] := by
  decide

example : (alookup wn1.m_ndat "n1").map Synset.ilrs = some [("n2", "hypernym")] := by
  decide

example :
    (invert_relations wn0).2 = [InvEvent.added "n1" "hyponym" "n2"] := by decide

/-- `WNQuery.look_up_id`: the synset stored under an id, if any. -/
def look_up_id (q : WNQuery) (wnid : String) (pos : POS) : Option Synset :=
  alookup (q.dat pos) wnid

/-- `WNQuery.look_up_relation`: ids of the immediate `relation`-targets of
a synset, in adjacency-list order; empty when the synset is absent. -/
def look_up_relation (q : WNQuery) (wnid : String) (pos : POS)
    (relation : String) : List String :=
  match alookup (q.dat pos) wnid with
  | none => []
  | some s => s.ilrs.filterMap
      (fun e => if e.2 = relation then some e.1 else none)

/-- Sequential traversal of a list of children in the `Option` monad:
the results are concatenated, and a failing child (fuel exhaustion in
this embedding, unbounded recursion in the source) fails the whole
traversal. -/
def optFlatMap {α β : Type} (f : α → Option (List β)) : List α → Option (List β)
  | [] => some []
  | x :: xs =>
    match f x, optFlatMap f xs with
    | some l, some ls => some (l ++ ls)
    | _, _ => none

/-- `WNQuery.trace_relation`: recursive preorder trace along a relation.
The start id is recorded before the children are traversed.  `fuel`
bounds the recursion depth; the Python code has no cycle guard. -/
def trace_relation (fuel : Nat) (q : WNQuery) (pos : POS) (rel : String)
    (wnid : String) : Option (List String) :=
  match fuel with
  | 0 => none
  | fuel + 1 =>
    (optFlatMap (trace_relation fuel q pos rel)
        (look_up_relation q wnid pos rel)).map
      (fun ls => wnid :: ls)

/-- `WNQuery.trace_relation_d`: like `trace_relation`, pairing each id
with its recursion level (children at `lev + 1`). -/
def trace_relation_d (fuel : Nat) (q : WNQuery) (pos : POS) (rel : String)
    (lev : Nat) (wnid : String) : Option (List (String × Nat)) :=
  match fuel with
  | 0 => none
  | fuel + 1 =>
    (optFlatMap (trace_relation_d fuel q pos rel (lev + 1))
        (look_up_relation q wnid pos rel)).map
      (fun ls => (wnid, lev) :: ls)

/-- `WNQuery.get_max_depth`: one plus the maximal level in the level
trace started at level 0 (the code starts `maximum` at 0 and adds 1). -/
def get_max_depth (fuel : Nat) (q : WNQuery) (pos : POS) (rel : String)
    (wnid : String) : Option Nat :=
  (trace_relation_d fuel q pos rel 0 wnid).map
    (fun l => (l.foldl (fun m p => max m p.2) 0) + 1)

/-- Left fold of set unions over the children, starting from the
accumulated set, as `trace_rel_rec_s` does with `res = res.union(...)`. -/
def unionChildren (f : String → Option (Finset String)) (acc : Finset String) :
    List String → Option (Finset String)
  | [] => some acc
  | i :: rest =>
    match f i with
    | none => none
    | some s => unionChildren f (acc ∪ s) rest

/-- `WNQuery.trace_rel_rec_s`: the set of ids reachable along a relation,
start included. -/
def trace_rel_rec_s (fuel : Nat) (q : WNQuery) (pos : POS) (rel : String)
    (wnid : String) : Option (Finset String) :=
  match fuel with
  | 0 => none
  | fuel + 1 =>
    unionChildren (trace_rel_rec_s fuel q pos rel) {wnid}
      (look_up_relation q wnid pos rel)

/-- `WNQuery.get_sub_graph_size`: the cardinality of `trace_rel_rec_s`. -/
def get_sub_graph_size (fuel : Nat) (q : WNQuery) (pos : POS) (rel : String)
    (wnid : String) : Option Nat :=
  (trace_rel_rec_s fuel q pos rel wnid).map Finset.card

example : get_max_depth 5 wn1 POS.n "hypernym" "n1" = some 2 := by decide

example : get_max_depth 5 wn1 POS.n "hypernym" "n2" = some 1 := by decide

example : get_sub_graph_size 5 wn1 POS.n "hyponym" "n2" = some 2 := by decide

example : trace_relation 5 wn1 POS.n "hypernym" "n1" = some ["n1", "n2"] := by
  decide

/-- `WNQuery.look_up_literal`: the synsets of every sense of a literal,
in literal-index order, skipping ids whose synset is absent. -/
def look_up_literal (q : WNQuery) (literal : String) (pos : POS) : List Synset :=
  match alookup (q.idx pos) literal with
  | none => []
  | some ids => ids.filterMap (fun i => alookup (q.dat pos) i)

/-- Depth-first search of `is_id_connected_with` over the children list:
the first child whose recursive search returns a truthy id stops the
loop (Python tests `if found_target_id:`, so an empty-string result is
falsy and the loop continues). -/
def firstFound (f : String → Option (Option String)) :
    List String → Option (Option String)
  | [] => some none
  | i :: rest =>
    match f i with
    | none => none
    | some (some t) => if t = "" then firstFound f rest else some (some t)
    | some none => firstFound f rest

/-- `WNQuery.is_id_connected_with`: depth-first search along `rel` for
the first member of `targ_ids`; the current node is checked before its
children. -/
def is_id_connected_with (fuel : Nat) (q : WNQuery) (pos : POS) (rel : String)
    (targ_ids : Finset String) (wnid : String) : Option (Option String) :=
  match fuel with
  | 0 => none
  | fuel + 1 =>
    if wnid ∈ targ_ids then some (some wnid)
    else firstFound (is_id_connected_with fuel q pos rel targ_ids)
      (look_up_relation q wnid pos rel)

/-- Loop of `is_literal_connected_with` over the senses of the literal:
the first sense with a truthy connection gives the result pair. -/
def firstConnectedSense (f : String → Option (Option String)) :
    List Synset → Option (Option String × Option String)
  | [] => some (none, none)
  | i :: rest =>
    match f i.wnid with
    | none => none
    | some (some t) =>
      if t = "" then firstConnectedSense f rest else some (some i.wnid, some t)
    | some none => firstConnectedSense f rest

/-- `WNQuery.is_literal_connected_with`: try each sense of the literal in
literal-index order; return the first `(sense-id, found-target-id)` pair
for which the depth-first search succeeds, `(none, none)` otherwise. -/
def is_literal_connected_with (fuel : Nat) (q : WNQuery) (literal : String)
    (pos : POS) (relation : String) (targ_ids : Finset String) :
    Option (Option String × Option String) :=
  firstConnectedSense (is_id_connected_with fuel q pos relation targ_ids)
    (look_up_literal q literal pos)

/-- `WNQuery.get_reach`: nodes reachable from a synset along `rel`
together with their distance from the start (distance 1 at the start
node, as the code is called with `dist=1`).  When a visited node has no
`rel` children and `add_top` is set, the synthetic node `#TOP#` is
appended at the next distance.  An id absent from the partition yields
the empty list. -/
def get_reach (fuel : Nat) (q : WNQuery) (pos : POS) (rel : String)
    (add_top : Bool) (dist : Nat) (wnid : String) :
    Option (List (String × Nat)) :=
  match fuel with
  | 0 => none
  | fuel + 1 =>
    match alookup (q.dat pos) wnid with
    | none => some []
    | some s =>
      let children := s.ilrs.filterMap
        (fun e => if e.2 = rel then some e.1 else none)
      (optFlatMap (get_reach fuel q pos rel add_top (dist + 1)) children).map
        (fun ls =>
          (wnid, dist) :: ls ++
            (if children.isEmpty && add_top then [("#TOP#", dist + 1)] else []))

/-- Sequential `Option`-valued map over a list, failing as soon as one
element fails. -/
def optMap {α β : Type} (f : α → Option β) : List α → Option (List β)
  | [] => some []
  | x :: xs =>
    match f x, optMap f xs with
    | some y, some ys => some (y :: ys)
    | _, _ => none

/-- `WNQuery.get_lea_cho_d`: the depth constant of the similarity engine,
the maximum of `get_max_depth(wnid, pos, relation)` over every id of the
noun partition, whatever `pos` is.  Python's `max` on an empty sequence
raises `ValueError`, embedded as `none`; the `LeaCho_D` dictionary of
the source only memoises this value and is not modelled. -/
def get_lea_cho_d (fuel : Nat) (q : WNQuery) (pos : POS) (rel : String) :
    Option Nat :=
  match q.m_ndat.map Prod.fst with
  | [] => none
  | i :: is =>
    (optMap (get_max_depth fuel q pos rel) (i :: is)).map
      (fun ds => ds.foldl max 0)

/-- The loop state of `sim_lea_cho`: the best common pair found so far in
each reach list and the current best path length. -/
structure SimState where
  ci_r1 : Option (String × Nat)
  ci_r2 : Option (String × Nat)
  path_length : Nat
  deriving DecidableEq

/-- One candidate step of the nested loop of `sim_lea_cho`: a pair of
reach entries sharing a node whose distance sum beats the current best
replaces the stored state. -/
def simStep (st : SimState) (p : (String × Nat) × (String × Nat)) : SimState :=
  if p.1.1 = p.2.1 ∧ p.1.2 + p.2.2 < st.path_length then
    { ci_r1 := some p.1, ci_r2 := some p.2, path_length := p.1.2 + p.2.2 }
  else st

/-- The nested iteration order of `sim_lea_cho`: all pairs of entries,
outer loop over the first reach list, inner loop over the second. -/
def reachPairs (r1 r2 : List (String × Nat)) :
    List ((String × Nat) × (String × Nat)) :=
  r1.flatMap (fun p1 => r2.map (fun p2 => (p1, p2)))

/-- The distance sums of the node-sharing pairs, in encounter order. -/
def matchSums (r1 r2 : List (String × Nat)) : List Nat :=
  (reachPairs r1 r2).filterMap
    (fun p => if p.1.1 = p.2.1 then some (p.1.2 + p.2.2) else none)

/-- Result of `sim_lea_cho`, keeping the exact data the source feeds into
the score formula: `connected pl d` stands for the score
`-log10(pl / (2*d))` computed from the decremented best path length,
and `noconnect` for the sentinel score `LeaCho_noconnect = -1.0` (a
`connected` score never equals `-1.0`, since `pl < 2*d` there). -/
inductive SimResult where
  | noconnect
  | connected (path_length : Nat) (d : Nat)
  deriving DecidableEq

/-- `WNQuery.sim_lea_cho`: compute the depth constant, the two reach
lists, then scan all entry pairs for the common node minimising the
distance sum, starting from the bound `2*d`; the common node is counted
twice, so the best sum is decremented.  Without a common pair below the
bound the sentinel is returned. -/
def sim_lea_cho (fuel : Nat) (q : WNQuery) (pos : POS) (rel : String)
    (add_top : Bool) (wnid1 wnid2 : String) : Option SimResult :=
  match get_lea_cho_d fuel q pos rel with
  | none => none
  | some d =>
    match get_reach fuel q pos rel add_top 1 wnid1,
        get_reach fuel q pos rel add_top 1 wnid2 with
    | some r1, some r2 =>
      let st := (reachPairs r1 r2).foldl simStep
        { ci_r1 := none, ci_r2 := none, path_length := 2 * d }
      match st.ci_r1, st.ci_r2 with
      | some _, some _ => some (SimResult.connected (st.path_length - 1) d)
      | _, _ => some SimResult.noconnect
    | _, _ => none

/-- Python dict assignment `results[score] = (id1, id2)` keyed by the
similarity score: an existing key keeps its position and gets the new
value, a new key is appended. -/
def simDictInsert (m : List (SimResult × (String × String))) (k : SimResult)
    (v : String × String) : List (SimResult × (String × String)) :=
  if m.any (fun p => p.1 = k) then
    m.map (fun p => if p.1 = k then (k, v) else p)
  else m ++ [(k, v)]

/-- Inner loop of `similarity_leacock_chodorow` over the senses of the
second literal, for a fixed sense of the first. -/
def simInnerLoop (fuel : Nat) (q : WNQuery) (pos : POS) (rel : String)
    (add_top : Bool) (i : Synset) (acc : List (SimResult × (String × String))) :
    List Synset → Option (List (SimResult × (String × String)))
  | [] => some acc
  | j :: rest =>
    match sim_lea_cho fuel q pos rel add_top i.wnid j.wnid with
    | none => none
    | some r =>
      simInnerLoop fuel q pos rel add_top i (simDictInsert acc r (i.wnid, j.wnid))
        rest

/-- Outer loop of `similarity_leacock_chodorow` over the senses of the
first literal. -/
def simOuterLoop (fuel : Nat) (q : WNQuery) (pos : POS) (rel : String)
    (add_top : Bool) (l2 : List Synset)
    (acc : List (SimResult × (String × String))) :
    List Synset → Option (List (SimResult × (String × String)))
  | [] => some acc
  | i :: rest =>
    match simInnerLoop fuel q pos rel add_top i acc l2 with
    | none => none
    | some acc' => simOuterLoop fuel q pos rel add_top l2 acc' rest

/-- `WNQuery.similarity_leacock_chodorow`: the score-keyed result map
over every pair of senses of the two literals (colliding scores
overwrite, last pair wins). -/
def similarity_leacock_chodorow (fuel : Nat) (q : WNQuery)
    (literal1 literal2 : String) (pos : POS) (rel : String) (add_top : Bool) :
    Option (List (SimResult × (String × String))) :=
  simOuterLoop fuel q pos rel add_top (look_up_literal q literal2 pos) []
    (look_up_literal q literal1 pos)

example : get_reach 5 wn1 POS.n "hypernym" false 1 "n1" =
    some [("n1", 1), ("n2", 2)] := by decide

example : get_reach 5 wn1 POS.n "hypernym" true 1 "n1" =
    some [("n1", 1), ("n2", 2), ("#TOP#", 3)] := by decide

example : get_lea_cho_d 5 wn1 POS.n "hypernym" = some 2 := by decide

example : sim_lea_cho 5 wn1 POS.n "hypernym" false "n1" "n1" =
    some (SimResult.connected 1 2) := by decide

example : sim_lea_cho 5 wn1 POS.n "hypernym" true "zz" "n1" =
    some SimResult.noconnect := by decide

/-- `SemFeaturesParserContentHandler.look_up_feature` on the feature map
produced by `read_xml`: `read_xml` sets `m_featmap.default_factory =
None`, so `self.m_featmap[feature]` raises `KeyError` (embedded as
`none`) for a feature absent from the map; for a present feature, the
set comprehension's guard `feature in self.m_featmap` holds and the id
list becomes a set. -/
def look_up_feature (featmap : List (String × List String)) (feature : String) :
    Option (Finset String) :=
  match alookup featmap feature with
  | none => none
  | some ids => some ids.toFinset

/-- `SemFeaturesParserContentHandler.is_literal_compatible_with_feature`:
a non-empty feature id set delegates to `is_literal_connected_with` with
relation `"hypernym"`; an empty set yields `(None, None)`; an absent
feature propagates the `KeyError` of `look_up_feature`. -/
def is_literal_compatible_with_feature (fuel : Nat) (q : WNQuery)
    (featmap : List (String × List String)) (literal : String) (pos : POS)
    (feature : String) : Option (Option String × Option String) :=
  match look_up_feature featmap feature with
  | none => none
  | some feat_ids =>
    if 0 < feat_ids.card then
      is_literal_connected_with fuel q literal pos "hypernym" feat_ids
    else some (none, none)

/-- Effect of `Synset.write_xml` on the synset it serialises: before the
`<ILR>` tags are written the adjacency list is replaced by
`list(sorted(set(self.ilrs)))`, i.e. the ascending sorted list of its
distinct edges; every other field is left unchanged. -/
def write_xml_ilrs (s : Synset) : Synset :=
  { s with ilrs := sortPairs s.ilrs.dedup }

example : (write_xml_ilrs
    { wnid := "x", pos := "n", definition := "", synonyms := [],
      ilrs := [("b", "r"), ("a", "r"), ("b", "r")] }).ilrs =
    [("a", "r"), ("b", "r")] := by decide

/-- Compositional restatement of the edge loop of `_inv_rel_pos`: the
events of one edge are concatenated in front of the events of the
remaining edges, instead of being threaded through an accumulator. -/
def inv_edges_ref (key wnid : String) :
    List (String × Synset) → List (String × String) →
    List (String × Synset) × List InvEvent
  | dat, [] => (dat, [])
  | dat, e :: rest =>
    let st := inv_edge key wnid (dat, []) e
    let next := inv_edges_ref key wnid st.1 rest
    (next.1, st.2 ++ next.2)

/-- Compositional restatement of the synset loop of `_inv_rel_pos` over
an explicit key list: per-synset event blocks are concatenated in
visiting order. -/
def inv_keys_ref :
    List (String × Synset) → List String →
    List (String × Synset) × List InvEvent
  | dat, [] => (dat, [])
  | dat, key :: rest =>
    match alookup dat key with
    | none => inv_keys_ref dat rest
    | some val =>
      let a := inv_edges_ref key val.wnid dat (sortPairs val.ilrs)
      let b := inv_keys_ref a.1 rest
      (b.1, a.2 ++ b.2)

/-- The inverter's behaviour stated compositionally: ascending-id synset
order, ascending sorted edge order, per-synset event blocks concatenated. -/
def inv_rel_pos_ref (dat : List (String × Synset)) :
    List (String × Synset) × List InvEvent :=
  inv_keys_ref dat (sortStrings (dat.map Prod.fst))

theorem inv_edge_delta (key w : String) (dat : List (String × Synset))
    (evs : List InvEvent) (e : String × String) :
    inv_edge key w (dat, evs) e =
      ((inv_edge key w (dat, []) e).1, evs ++ (inv_edge key w (dat, []) e).2) := by
  unfold inv_edge
  cases invRelTable e.2 with
  | none => simp
  | some invr =>
    cases alookup dat e.1 with
    | none => simp
    | some tt =>
      by_cases h : tt.wnid = w <;> simp [h]

theorem foldl_inv_edge_eq_ref (key w : String) :
    ∀ (es : List (String × String)) (dat : List (String × Synset))
      (evs : List InvEvent),
      es.foldl (inv_edge key w) (dat, evs) =
        ((inv_edges_ref key w dat es).1,
          evs ++ (inv_edges_ref key w dat es).2) := by
  intro es
  induction es with
  | nil => intro dat evs; simp [inv_edges_ref]
  | cons e rest ih =>
    intro dat evs
    rw [List.foldl_cons, inv_edge_delta, ih]
    simp [inv_edges_ref]

theorem inv_rel_pos_go_eq_ref :
    ∀ (keys : List String) (dat : List (String × Synset))
      (evs : List InvEvent),
      inv_rel_pos_go sortPairs keys (dat, evs) =
        ((inv_keys_ref dat keys).1, evs ++ (inv_keys_ref dat keys).2) := by
  intro keys
  induction keys with
  | nil => intro dat evs; simp [inv_rel_pos_go, inv_keys_ref]
  | cons key rest ih =>
    intro dat evs
    cases h : alookup dat key with
    | none => simp only [inv_rel_pos_go, inv_keys_ref, h]; exact ih dat evs
    | some val =>
      simp only [inv_rel_pos_go, inv_keys_ref, h]
      rw [foldl_inv_edge_eq_ref, ih]
      simp

/-- Synset with two hypernym edges stored in descending target order,
used to separate the code's sorted edge iteration from the spec's
adjacency-list order. -/
def synM1 : Synset :=
  { wnid := "n1", pos := "n", definition := "",
    ilrs := [("n3", "hypernym"), ("n2", "hypernym")], synonyms := [] }

/-- Empty-adjacency synset "n3" for the edge-order scenario. -/
def synM3 : Synset :=
  { wnid := "n3", pos := "n", definition := "", ilrs := [], synonyms := [] }

/-- Partition for the edge-order scenario: "n1" points to "n3" before
"n2" in its adjacency list. -/
def datC3 : List (String × Synset) :=
  [("n1", synM1), ("n2", synN2), ("n3", synM3)]

example : (inv_rel_pos datC3).2 =
    [InvEvent.added "n1" "hyponym" "n2", InvEvent.added "n1" "hyponym" "n3"] := by
  decide

example : (inv_rel_pos_listorder datC3).2 =
    [InvEvent.added "n1" "hyponym" "n3", InvEvent.added "n1" "hyponym" "n2"] := by
  decide

/-- Synset with a duplicated, unsorted adjacency list, for the
serialization claim. -/
def synDup : Synset :=
  { wnid := "x1", pos := "n", definition := "",
    ilrs := [("b", "hyponym"), ("a", "hyponym"), ("b", "hyponym")],
    synonyms := [] }

/-- Single-synset noun partition whose depth constant is 1. -/
def wnS : WNQuery :=
  { m_ndat := [("n1", synN2)], m_vdat := [], m_adat := [], m_bdat := [],
    m_nidx := [], m_vidx := [], m_aidx := [], m_bidx := [] }

/-- Verb synset containing the literal "run". -/
def synV1 : Synset :=
  { wnid := "v1", pos := "v", definition := "",
    ilrs := [], synonyms := [{ literal := "run", sense := "1" }] }

/-- Index with an empty noun partition but a stored verb synset, for the
depth-constant claim. -/
def qv : WNQuery :=
  { m_ndat := [], m_vdat := [("v1", synV1)], m_adat := [], m_bdat := [],
    m_nidx := [], m_vidx := [("run", ["v1"])], m_aidx := [], m_bidx := [] }

/-- A loaded feature map holding the single feature "animal". -/
def fmC : List (String × List String) := [("animal", ["n1"])]

theorem optFlatMap_mem {α β : Type} (f : α → Option (List β)) :
    ∀ (xs : List α) (ls : List β), optFlatMap f xs = some ls →
      ∀ b ∈ ls, ∃ x ∈ xs, ∃ lx, f x = some lx ∧ b ∈ lx := by
  intro xs
  induction xs with
  | nil =>
    intro ls h b hb
    simp only [optFlatMap, Option.some.injEq] at h
    subst h
    simp at hb
  | cons x rest ih =>
    intro ls h b hb
    simp only [optFlatMap] at h
    cases hx : f x with
    | none => rw [hx] at h; simp at h
    | some lx =>
      cases hrest : optFlatMap f rest with
      | none => rw [hx, hrest] at h; simp at h
      | some ls' =>
        rw [hx, hrest] at h
        simp only [Option.some.injEq] at h
        subst h
        rcases List.mem_append.mp hb with hb | hb
        · exact ⟨x, List.mem_cons_self x rest, lx, hx, hb⟩
        · rcases ih ls' hrest b hb with ⟨y, hy, ly, hly, hbly⟩
          exact ⟨y, List.mem_cons_of_mem x hy, ly, hly, hbly⟩

theorem unionChildren_eq_optFlatMap (g : String → Option (List String))
    (f : String → Option (Finset String))
    (hfg : ∀ i, f i = (g i).map List.toFinset) :
    ∀ (ids : List String) (acc : Finset String),
      unionChildren f acc ids =
        (optFlatMap g ids).map (fun l => acc ∪ l.toFinset) := by
  intro ids
  induction ids with
  | nil => intro acc; simp [unionChildren, optFlatMap]
  | cons i rest ih =>
    intro acc
    simp only [unionChildren, optFlatMap, hfg i]
    cases g i with
    | none => simp
    | some li =>
      cases hrest : optFlatMap g rest with
      | none => simp only [Option.map_some']; rw [ih]; simp [hrest]
      | some ls =>
        simp only [Option.map_some']
        rw [ih]
        simp [hrest, Finset.union_assoc]

theorem trace_rel_rec_s_eq_trace (q : WNQuery) (pos : POS) (rel : String) :
    ∀ (fuel : Nat) (wnid : String),
      trace_rel_rec_s fuel q pos rel wnid =
        (trace_relation fuel q pos rel wnid).map List.toFinset := by
  intro fuel
  induction fuel with
  | zero => intro wnid; rfl
  | succ fuel ih =>
    intro wnid
    unfold trace_rel_rec_s trace_relation
    rw [unionChildren_eq_optFlatMap (trace_relation fuel q pos rel) _ ih]
    cases optFlatMap (trace_relation fuel q pos rel)
        (look_up_relation q wnid pos rel) with
    | none => rfl
    | some ls => simp [Finset.insert_eq]

theorem le_foldl_min :
    ∀ (l : List Nat) (a b : Nat), b ≤ l.foldl min a ↔ b ≤ a ∧ ∀ s ∈ l, b ≤ s := by
  intro l
  induction l with
  | nil => intro a b; simp
  | cons s l ih =>
    intro a b
    rw [List.foldl_cons, ih]
    constructor
    · rintro ⟨hmin, hall⟩
      rcases le_min_iff.mp hmin with ⟨ha, hs⟩
      exact ⟨ha, fun x hx => by
        rcases List.mem_cons.mp hx with rfl | hx
        · exact hs
        · exact hall x hx⟩
    · rintro ⟨ha, hall⟩
      refine ⟨le_min_iff.mpr ⟨ha, hall s (List.mem_cons_self s l)⟩, fun x hx => ?_⟩
      exact hall x (List.mem_cons_of_mem s hx)

theorem foldl_min_le_init (l : List Nat) (a : Nat) : l.foldl min a ≤ a :=
  ((le_foldl_min l a _).mp le_rfl).1

theorem foldl_min_le_mem (l : List Nat) (a : Nat) {s : Nat} (hs : s ∈ l) :
    l.foldl min a ≤ s :=
  ((le_foldl_min l a _).mp le_rfl).2 s hs


theorem simStep_path_le (st : SimState) (p : (String × Nat) × (String × Nat)) :
    (simStep st p).path_length ≤ st.path_length := by
  unfold simStep
  by_cases hc : p.1.1 = p.2.1 ∧ p.1.2 + p.2.2 < st.path_length
  · rw [if_pos hc]; exact Nat.le_of_lt hc.2
  · rw [if_neg hc]

theorem foldl_simStep_path :
    ∀ (ps : List ((String × Nat) × (String × Nat))) (st : SimState),
      (ps.foldl simStep st).path_length =
        (ps.filterMap
            (fun p => if p.1.1 = p.2.1 then some (p.1.2 + p.2.2) else none)).foldl
          min st.path_length := by
  intro ps
  induction ps with
  | nil => intro st; rfl
  | cons p ps ih =>
    intro st
    rw [List.foldl_cons, ih]
    by_cases hk : p.1.1 = p.2.1
    · have hfc : (p :: ps).filterMap
          (fun p => if p.1.1 = p.2.1 then some (p.1.2 + p.2.2) else none) =
          (p.1.2 + p.2.2) :: ps.filterMap
            (fun p => if p.1.1 = p.2.1 then some (p.1.2 + p.2.2) else none) := by
        simp [List.filterMap_cons, hk]
      rw [hfc, List.foldl_cons]
      congr 1
      by_cases hlt : p.1.2 + p.2.2 < st.path_length
      · rw [show simStep st p =
            { ci_r1 := some p.1, ci_r2 := some p.2,
              path_length := p.1.2 + p.2.2 } from by simp [simStep, hk, hlt]]
        exact (Nat.min_eq_right (Nat.le_of_lt hlt)).symm
      · rw [show simStep st p = st from by simp [simStep, hlt]]
        exact (Nat.min_eq_left (Nat.le_of_not_lt hlt)).symm
    · have hfc : (p :: ps).filterMap
          (fun p => if p.1.1 = p.2.1 then some (p.1.2 + p.2.2) else none) =
          ps.filterMap
            (fun p => if p.1.1 = p.2.1 then some (p.1.2 + p.2.2) else none) := by
        simp [List.filterMap_cons, hk]
      rw [hfc]
      congr 1
      simp [simStep, hk]

theorem foldl_simStep_cases :
    ∀ (ps : List ((String × Nat) × (String × Nat))) (st : SimState),
      ps.foldl simStep st = st ∨
        ((ps.foldl simStep st).ci_r1.isSome ∧
          (ps.foldl simStep st).ci_r2.isSome ∧
          (ps.foldl simStep st).path_length < st.path_length) := by
  intro ps
  induction ps with
  | nil => intro st; exact Or.inl rfl
  | cons p ps ih =>
    intro st
    rw [List.foldl_cons]
    rcases ih (simStep st p) with heq | ⟨h1, h2, h3⟩
    · rw [heq]
      by_cases hc : p.1.1 = p.2.1 ∧ p.1.2 + p.2.2 < st.path_length
      · refine Or.inr ?_
        rw [show simStep st p =
            { ci_r1 := some p.1, ci_r2 := some p.2,
              path_length := p.1.2 + p.2.2 } from by simp [simStep, hc.1, hc.2]]
        exact ⟨rfl, rfl, hc.2⟩
      · refine Or.inl ?_
        rw [show simStep st p = st from by simp [simStep, if_neg hc]]
    · exact Or.inr ⟨h1, h2, lt_of_lt_of_le h3 (simStep_path_le st p)⟩

theorem mem_reachPairs {r1 r2 : List (String × Nat)}
    {p : (String × Nat) × (String × Nat)} :
    p ∈ reachPairs r1 r2 ↔ p.1 ∈ r1 ∧ p.2 ∈ r2 := by
  cases p with
  | mk p1 p2 =>
    constructor
    · intro h
      rcases List.mem_flatMap.mp h with ⟨a, ha, hp⟩
      rcases List.mem_map.mp hp with ⟨b, hb, heq⟩
      cases heq
      exact ⟨ha, hb⟩
    · rintro ⟨h1, h2⟩
      exact List.mem_flatMap.mpr ⟨p1, h1, List.mem_map.mpr ⟨p2, h2, rfl⟩⟩

theorem mem_matchSums_of {r1 r2 : List (String × Nat)}
    {p1 p2 : String × Nat} (h1 : p1 ∈ r1) (h2 : p2 ∈ r2) (hk : p1.1 = p2.1) :
    p1.2 + p2.2 ∈ matchSums r1 r2 := by
  refine List.mem_filterMap.mpr ⟨(p1, p2), mem_reachPairs.mpr ⟨h1, h2⟩, ?_⟩
  simp [hk]

theorem of_mem_matchSums {r1 r2 : List (String × Nat)} {s : Nat}
    (hs : s ∈ matchSums r1 r2) :
    ∃ p1 ∈ r1, ∃ p2 ∈ r2, p1.1 = p2.1 ∧ s = p1.2 + p2.2 := by
  rcases List.mem_filterMap.mp hs with ⟨p, hp, hps⟩
  rcases mem_reachPairs.mp hp with ⟨h1, h2⟩
  by_cases hk : p.1.1 = p.2.1
  · rw [if_pos hk] at hps
    exact ⟨p.1, h1, p.2, h2, hk, (Option.some.injEq _ _ ▸ hps).symm⟩
  · rw [if_neg hk] at hps
    exact absurd hps (by simp)

theorem get_reach_dist_le (q : WNQuery) (pos : POS) (rel : String)
    (add_top : Bool) :
    ∀ (fuel dist : Nat) (wnid : String) (r : List (String × Nat)),
      get_reach fuel q pos rel add_top dist wnid = some r →
      ∀ p ∈ r, dist ≤ p.2 := by
  intro fuel
  induction fuel with
  | zero => intro dist wnid r h; simp [get_reach] at h
  | succ fuel ih =>
    intro dist wnid r h p hp
    unfold get_reach at h
    cases hs : alookup (q.dat pos) wnid with
    | none =>
      rw [hs] at h
      simp only [Option.some.injEq] at h
      subst h
      simp at hp
    | some s =>
      rw [hs] at h
      rcases Option.map_eq_some'.mp h with ⟨ls, hls, hr⟩
      subst hr
      rcases List.mem_cons.mp hp with rfl | hp
      · exact le_rfl
      · rcases List.mem_append.mp hp with hp | hp
        · rcases optFlatMap_mem _ _ _ hls p hp with ⟨i, _, li, hli, hpli⟩
          exact le_trans (Nat.le_succ dist) (ih (dist + 1) i li hli p hpli)
        · by_cases hc : (s.ilrs.filterMap
              (fun e => if e.2 = rel then some e.1 else none)).isEmpty && add_top
          · rw [if_pos hc] at hp
            rcases List.mem_singleton.mp hp with rfl
            exact Nat.le_succ dist
          · rw [if_neg hc] at hp
            simp at hp

theorem get_reach_head (q : WNQuery) (pos : POS) (rel : String)
    (add_top : Bool) (fuel : Nat) (wnid : String) (s : Synset)
    (r : List (String × Nat)) (hs : alookup (q.dat pos) wnid = some s)
    (hr : get_reach fuel q pos rel add_top 1 wnid = some r) :
    ∃ rest, r = (wnid, 1) :: rest := by
  cases fuel with
  | zero => simp [get_reach] at hr
  | succ fuel =>
    unfold get_reach at hr
    rw [hs] at hr
    rcases Option.map_eq_some'.mp hr with ⟨ls, _, hrr⟩
    exact ⟨_, hrr.symm⟩

/-- C1 counterexample: in the spec's two-synset scenario the code gives
`maxDepth("n1","n","hypernym") = 2`, not 1 as claimed ("n1" has a
hypernym parent, so its level trace reaches level 1 and `get_max_depth`
adds 1). -/
theorem c1_scenario_counterexample :
    get_max_depth 5 wn1 POS.n "hypernym" "n1" = some 2 ∧
    get_max_depth 5 wn1 POS.n "hypernym" "n1" ≠ some 1 :=
  ⟨by decide, by decide⟩

/-- C1 amended: after inversion "n2" has gained the edge
`("n1","hyponym")`, and the queries return
`maxDepth("n1","n","hypernym") = 2`, `maxDepth("n2","n","hypernym") = 1`
(the two values the claim states, swapped) and
`subGraphSize("n2","n","hyponym") = 2`. -/
theorem c1_scenario_amended :
    (alookup wn1.m_ndat "n2").map Synset.ilrs = some [("n1", "hyponym")] ∧
    get_max_depth 5 wn1 POS.n "hypernym" "n1" = some 2 ∧
    get_max_depth 5 wn1 POS.n "hypernym" "n2" = some 1 ∧
    get_sub_graph_size 5 wn1 POS.n "hyponym" "n2" = some 2 := by
  refine ⟨by decide, by decide, by decide, by decide⟩

/-- C2 counterexample: with `addTop = true` the similarity of the absent
id "zz" with "n1" is still the sentinel (`get_reach` of an id absent
from the partition is empty, so no common node exists), refuting "the
sentinel is returned only when addTop is false". -/
theorem c2_addtop_sentinel_counterexample :
    sim_lea_cho 5 wn1 POS.n "hypernym" true "zz" "n1" =
      some SimResult.noconnect := by decide

/-- C2 amended: whenever the depth constant and the two reach lists are
defined, `sim` returns the sentinel exactly when no node-sharing pair of
reach entries has a distance sum below `2*D`; this can happen even with
`addTop` true (for example for an id absent from the partition). -/
theorem c2_noconnect_iff_no_short_common (fuel : Nat) (q : WNQuery)
    (pos : POS) (rel : String) (add_top : Bool) (wnid1 wnid2 : String)
    (d : Nat) (r1 r2 : List (String × Nat))
    (hd : get_lea_cho_d fuel q pos rel = some d)
    (h1 : get_reach fuel q pos rel add_top 1 wnid1 = some r1)
    (h2 : get_reach fuel q pos rel add_top 1 wnid2 = some r2) :
    sim_lea_cho fuel q pos rel add_top wnid1 wnid2 =
        some SimResult.noconnect ↔
      ∀ s ∈ matchSums r1 r2, 2 * d ≤ s := by
  simp only [sim_lea_cho, hd, h1, h2]
  have hpath : (List.foldl simStep
      { ci_r1 := none, ci_r2 := none, path_length := 2 * d }
      (reachPairs r1 r2)).path_length =
      (matchSums r1 r2).foldl min (2 * d) :=
    foldl_simStep_path (reachPairs r1 r2) _
  rcases foldl_simStep_cases (reachPairs r1 r2)
      { ci_r1 := none, ci_r2 := none, path_length := 2 * d } with
    heq | ⟨hs1, hs2, hlt⟩
  · have hall : ∀ s ∈ matchSums r1 r2, 2 * d ≤ s := by
      have h2d : 2 * d ≤ (matchSums r1 r2).foldl min (2 * d) := by
        rw [← hpath, heq]
      exact ((le_foldl_min _ _ _).mp h2d).2
    rw [heq]
    exact iff_of_true rfl hall
  · obtain ⟨a, ha⟩ := Option.isSome_iff_exists.mp hs1
    obtain ⟨b, hb⟩ := Option.isSome_iff_exists.mp hs2
    have hlt2 : (matchSums r1 r2).foldl min (2 * d) < 2 * d := by
      rw [← hpath]
      exact hlt
    refine iff_of_false ?_ ?_
    · rw [ha, hb]
      simp
    · intro hall
      have h2d : 2 * d ≤ (matchSums r1 r2).foldl min (2 * d) :=
        (le_foldl_min _ _ _).mpr ⟨le_rfl, hall⟩
      omega

/-- C2 witness: the amended equivalence applied at the concrete index
`wn1`, with `addTop = true` and the absent start id "zz". -/
theorem c2_noconnect_iff_no_short_common_witness :
    get_lea_cho_d 5 wn1 POS.n "hypernym" = some 2 ∧
    get_reach 5 wn1 POS.n "hypernym" true 1 "zz" = some [] ∧
    get_reach 5 wn1 POS.n "hypernym" true 1 "n1" =
      some [("n1", 1), ("n2", 2), ("#TOP#", 3)] ∧
    (sim_lea_cho 5 wn1 POS.n "hypernym" true "zz" "n1" =
        some SimResult.noconnect ↔
      ∀ s ∈ matchSums [] [("n1", 1), ("n2", 2), ("#TOP#", 3)], 2 * 2 ≤ s) :=
  ⟨by decide, by decide, by decide,
    c2_noconnect_iff_no_short_common 5 wn1 POS.n "hypernym" true "zz" "n1" 2
      [] [("n1", 1), ("n2", 2), ("#TOP#", 3)]
      (by decide) (by decide) (by decide)⟩

/-- C3 counterexample: with the adjacency list
`[("n3","hypernym"), ("n2","hypernym")]` the code emits the inverse-edge
events for "n2" before "n3" (it iterates `sorted(val.ilrs)`), while the
spec's adjacency-list order would emit "n3" first; the two diagnostic
sequences differ. -/
theorem c3_edge_order_counterexample :
    (inv_rel_pos datC3).2 =
      [InvEvent.added "n1" "hyponym" "n2", InvEvent.added "n1" "hyponym" "n3"] ∧
    (inv_rel_pos_listorder datC3).2 =
      [InvEvent.added "n1" "hyponym" "n3", InvEvent.added "n1" "hyponym" "n2"] ∧
    (inv_rel_pos datC3).2 ≠ (inv_rel_pos_listorder datC3).2 :=
  ⟨by decide, by decide, by decide⟩

/-- C3 amended: the inverter visits synsets in ascending-id order and,
within each synset, its edges in ascending `(target-id, relation)` order
(`sorted(val.ilrs)`), each synset's edge list being read from the
partition state current at its visit; the emitted diagnostics and the
final partition are exactly the ones generated compositionally by that
iteration order. -/
theorem c3_sorted_iteration_order (dat : List (String × Synset)) :
    inv_rel_pos dat = inv_rel_pos_ref dat := by
  unfold inv_rel_pos inv_rel_pos_ref
  rw [inv_rel_pos_go_eq_ref]
  simp

/-- C4 counterexample: serialising a synset whose adjacency list holds a
duplicate, unsorted edge list replaces `ilrs` by its sorted
deduplication, so the list (order and duplicates included) is not
preserved. -/
theorem c4_write_xml_mutates_counterexample :
    (write_xml_ilrs synDup).ilrs = [("a", "hyponym"), ("b", "hyponym")] ∧
    (write_xml_ilrs synDup).ilrs ≠ synDup.ilrs :=
  ⟨by decide, by decide⟩

/-- C4 amended: XML serialisation does mutate the stored adjacency list,
replacing it by its sorted deduplication; the list is preserved as a set
(and every other synset field is untouched), but not as a list. -/
theorem c4_write_xml_set_preserving (s : Synset) :
    (write_xml_ilrs s).ilrs.toFinset = s.ilrs.toFinset ∧
    (write_xml_ilrs s).ilrs.Nodup ∧
    (write_xml_ilrs s).wnid = s.wnid ∧
    (write_xml_ilrs s).pos = s.pos ∧
    (write_xml_ilrs s).definition = s.definition ∧
    (write_xml_ilrs s).synonyms = s.synonyms := by
  have hperm := List.perm_insertionSort pairLe s.ilrs.dedup
  refine ⟨?_, ?_, rfl, rfl, rfl, rfl⟩
  · calc (write_xml_ilrs s).ilrs.toFinset
        = (sortPairs s.ilrs.dedup).toFinset := rfl
      _ = s.ilrs.dedup.toFinset := List.toFinset_eq_of_perm _ _ hperm
      _ = s.ilrs.toFinset := List.toFinset.ext (fun _ => List.mem_dedup)
  · exact hperm.nodup_iff.mpr (List.nodup_dedup _)

/-- C5: after `read_xml` has closed the feature map's `default_factory`,
looking up a feature absent from the map raises `KeyError` inside
`look_up_feature` (`self.m_featmap[feature]` is evaluated before the
comprehension's `feature in self.m_featmap` guard), so
`is_literal_compatible_with_feature` propagates the error instead of
returning `(None, None)`; a present feature still behaves as claimed. -/
theorem c5_absent_feature_keyerror :
    look_up_feature fmC "vehicle" = none ∧
    is_literal_compatible_with_feature 5 wn1 fmC "cat" POS.n "vehicle" =
      none ∧
    look_up_feature fmC "animal" = some {"n1"} :=
  ⟨by decide, by decide, by decide⟩

/-- C6: running the inverter a second time on the already-inverted
scenario index appends the inverse edge `("n1","hyponym")` to "n2"
again, so the pair occurs twice; inversion is not idempotent.  `wn0`
holds one invertible non-self edge, `("n2","hypernym")` on "n1". -/
theorem c6_double_inversion_duplicates :
    (alookup (invert_relations wn1).1.m_ndat "n2").map
        (fun s => s.ilrs.count ("n1", "hyponym")) = some 2 ∧
    (alookup wn1.m_ndat "n2").map
        (fun s => s.ilrs.count ("n1", "hyponym")) = some 1 :=
  ⟨by decide, by decide⟩

/-- C7: the subgraph size equals the number of distinct ids of the
preorder trace (its deduplicated length), and is 1 whenever the start
synset has no out-edges labelled `rel`, for any fuel on which the trace
terminates. -/
theorem c7_sub_graph_size_eq_trace (fuel : Nat) (q : WNQuery) (pos : POS)
    (rel : String) (wnid : String) :
    get_sub_graph_size fuel q pos rel wnid =
      (trace_relation fuel q pos rel wnid).map (fun l => l.dedup.length) ∧
    (look_up_relation q wnid pos rel = [] → 0 < fuel →
      get_sub_graph_size fuel q pos rel wnid = some 1) := by
  constructor
  · unfold get_sub_graph_size
    rw [trace_rel_rec_s_eq_trace]
    cases trace_relation fuel q pos rel wnid with
    | none => rfl
    | some l => simp [List.card_toFinset]
  · intro hempty hfuel
    cases fuel with
    | zero => exact absurd hfuel (by omega)
    | succ fuel =>
      unfold get_sub_graph_size trace_rel_rec_s
      rw [hempty]
      simp [unionChildren]

/-- C7 witness: the equality and the leaf case evaluated on the scenario
index at the leaf "n2" (no hypernym out-edges after inversion). -/
theorem c7_sub_graph_size_eq_trace_witness :
    get_sub_graph_size 1 wn1 POS.n "hypernym" "n2" =
      (trace_relation 1 wn1 POS.n "hypernym" "n2").map
        (fun l => l.dedup.length) ∧
    look_up_relation wn1 "n2" POS.n "hypernym" = [] ∧ 0 < 1 ∧
    get_sub_graph_size 1 wn1 POS.n "hypernym" "n2" = some 1 :=
  ⟨(c7_sub_graph_size_eq_trace 1 wn1 POS.n "hypernym" "n2").1,
    by decide, by decide,
    (c7_sub_graph_size_eq_trace 1 wn1 POS.n "hypernym" "n2").2
      (by decide) (by decide)⟩

/-- C8 counterexample: on a noun partition whose depth constant is 1
(one synset, no edges) the search bound `2*D = 2` is never strictly
beaten, so `sim(id,id,pos,rel,false)` returns the sentinel, not the
claimed path-length-1 score. -/
theorem c8_depth_one_sentinel_counterexample :
    get_lea_cho_d 5 wnS POS.n "hypernym" = some 1 ∧
    sim_lea_cho 5 wnS POS.n "hypernym" false "n1" "n1" =
      some SimResult.noconnect ∧
    some SimResult.noconnect ≠ some (SimResult.connected 1 1) :=
  ⟨by decide, by decide, by decide⟩

/-- C8 amended: provided the depth constant is at least 2 (and the reach
computation terminates), `sim(id,id,pos,rel,false)` of a present id
finds the shortest connecting path of length 1 through the node itself,
and the score formula at path length 1 gives
`-log10(1/(2*D)) = log10(2*D)`. -/
theorem c8_sim_self_amended (fuel : Nat) (q : WNQuery) (pos : POS)
    (rel : String) (wnid : String) (d : Nat) (s : Synset)
    (r : List (String × Nat))
    (hd : get_lea_cho_d fuel q pos rel = some d) (hd2 : 2 ≤ d)
    (hs : alookup (q.dat pos) wnid = some s)
    (hr : get_reach fuel q pos rel false 1 wnid = some r) :
    sim_lea_cho fuel q pos rel false wnid wnid =
      some (SimResult.connected 1 d) ∧
    -Real.logb 10 (1 / (2 * (d : ℝ))) = Real.logb 10 (2 * (d : ℝ)) := by
  constructor
  · obtain ⟨rest, hrsh⟩ := get_reach_head q pos rel false fuel wnid s r hs hr
    have hmem1 : (wnid, 1) ∈ r := by
      rw [hrsh]; exact List.mem_cons_self _ _
    have h2mem : 2 ∈ matchSums r r := mem_matchSums_of hmem1 hmem1 rfl
    have hge : ∀ x ∈ matchSums r r, 2 ≤ x := by
      intro x hx
      rcases of_mem_matchSums hx with ⟨p1, hp1, p2, hp2, _, hxeq⟩
      have hb1 := get_reach_dist_le q pos rel false fuel 1 wnid r hr p1 hp1
      have hb2 := get_reach_dist_le q pos rel false fuel 1 wnid r hr p2 hp2
      omega
    have hfold : (matchSums r r).foldl min (2 * d) = 2 := by
      refine le_antisymm (foldl_min_le_mem _ _ h2mem) ?_
      exact (le_foldl_min _ _ _).mpr ⟨by omega, hge⟩
    have hpath : (List.foldl simStep
        { ci_r1 := none, ci_r2 := none, path_length := 2 * d }
        (reachPairs r r)).path_length = 2 := by
      have hp := foldl_simStep_path (reachPairs r r)
        { ci_r1 := none, ci_r2 := none, path_length := 2 * d }
      rw [hp]
      exact hfold
    rcases foldl_simStep_cases (reachPairs r r)
        { ci_r1 := none, ci_r2 := none, path_length := 2 * d } with
      heq | ⟨hs1, hs2, _⟩
    · exfalso
      have h22 : 2 * d = 2 := by
        have hx := hpath
        rw [heq] at hx
        exact hx
      omega
    · obtain ⟨a, ha⟩ := Option.isSome_iff_exists.mp hs1
      obtain ⟨b, hb⟩ := Option.isSome_iff_exists.mp hs2
      simp only [sim_lea_cho, hd, hr]
      rw [ha, hb]
      simp [hpath]
  · rw [one_div, Real.logb_inv, neg_neg]

/-- C8 witness: the amended statement applied at the scenario index,
whose depth constant for `("n","hypernym")` is 2, at the present id
"n1". -/
theorem c8_sim_self_amended_witness :
    get_lea_cho_d 5 wn1 POS.n "hypernym" = some 2 ∧ 2 ≤ 2 ∧
    alookup (wn1.dat POS.n) "n1" = some synN1 ∧
    get_reach 5 wn1 POS.n "hypernym" false 1 "n1" =
      some [("n1", 1), ("n2", 2)] ∧
    (sim_lea_cho 5 wn1 POS.n "hypernym" false "n1" "n1" =
        some (SimResult.connected 1 2) ∧
      -Real.logb 10 (1 / (2 * (2 : ℝ))) = Real.logb 10 (2 * (2 : ℝ))) :=
  ⟨by decide, by decide, by decide, by decide,
    c8_sim_self_amended 5 wn1 POS.n "hypernym" "n1" 2 synN1
      [("n1", 1), ("n2", 2)] (by decide) (by decide) (by decide) (by decide)⟩

/-- C9: whenever the preorder trace terminates, its result list contains
the start id, present in the partition or not, with or without
out-edges (the trace prepends the start before recursing). -/
theorem c9_trace_contains_start (fuel : Nat) (q : WNQuery) (pos : POS)
    (rel : String) (wnid : String) (l : List String)
    (h : trace_relation fuel q pos rel wnid = some l) : wnid ∈ l := by
  cases fuel with
  | zero => simp [trace_relation] at h
  | succ fuel =>
    unfold trace_relation at h
    rcases Option.map_eq_some'.mp h with ⟨ls, _, hl⟩
    rw [← hl]
    exact List.mem_cons_self _ _

/-- C9 witness: the trace of the id "zz", absent from the partition and
hence without out-edges, still contains "zz". -/
theorem c9_trace_contains_start_witness :
    trace_relation 1 wn1 POS.n "hypernym" "zz" = some ["zz"] ∧
    "zz" ∈ ["zz"] :=
  ⟨by decide,
    c9_trace_contains_start 1 wn1 POS.n "hypernym" "zz" ["zz"] (by decide)⟩

/-- C10: the depth constant maximises over the ids of the noun partition
whatever the requested POS is, so with an empty noun partition
`get_lea_cho_d` errors (Python: `max()` on an empty sequence raises
`ValueError`) and so do `sim_lea_cho` and, as soon as both literals
have senses, `similarity_leacock_chodorow` — for every POS, even one
with stored synsets. -/
theorem c10_empty_noun_depth_error (fuel : Nat) (q : WNQuery) (pos : POS)
    (rel : String) (h : q.m_ndat = []) :
    get_lea_cho_d fuel q pos rel = none ∧
    (∀ (add_top : Bool) (wnid1 wnid2 : String),
      sim_lea_cho fuel q pos rel add_top wnid1 wnid2 = none) ∧
    (∀ (add_top : Bool) (lit1 lit2 : String) (i j : Synset)
        (l1 l2 : List Synset),
      look_up_literal q lit1 pos = i :: l1 →
      look_up_literal q lit2 pos = j :: l2 →
      similarity_leacock_chodorow fuel q lit1 lit2 pos rel add_top = none) := by
  have hd : get_lea_cho_d fuel q pos rel = none := by
    simp [get_lea_cho_d, h]
  refine ⟨hd, ?_, ?_⟩
  · intro add_top wnid1 wnid2
    simp only [sim_lea_cho, hd]
  · intro add_top lit1 lit2 i j l1 l2 h1 h2
    have hsim : sim_lea_cho fuel q pos rel add_top i.wnid j.wnid = none := by
      simp only [sim_lea_cho, hd]
    unfold similarity_leacock_chodorow
    rw [h1, h2]
    simp only [simOuterLoop, simInnerLoop, hsim]

/-- C10 witness: the index `qv` has an empty noun partition but a stored
verb synset for the literal "run"; depth constant, `sim` and
`similarity` all error for POS `v`. -/
theorem c10_empty_noun_depth_error_witness :
    qv.m_ndat = [] ∧
    get_lea_cho_d 5 qv POS.v "hypernym" = none ∧
    sim_lea_cho 5 qv POS.v "hypernym" false "v1" "v1" = none ∧
    look_up_literal qv "run" POS.v = [synV1] ∧
    similarity_leacock_chodorow 5 qv "run" "run" POS.v "hypernym" false =
      none :=
  ⟨by decide,
    (c10_empty_noun_depth_error 5 qv POS.v "hypernym" (by decide)).1,
    (c10_empty_noun_depth_error 5 qv POS.v "hypernym" (by decide)).2.1
      false "v1" "v1",
    by decide,
    (c10_empty_noun_depth_error 5 qv POS.v "hypernym" (by decide)).2.2
      false "run" "run" synV1 synV1 [] [] (by decide) (by decide)⟩
